import Mathlib

/-!
Verification of the MiniTalk persistence layer (file-backed record store).

Shallow embedding of the data-access layer of the chat application:
the per-file promise-chain queue (`queueFileOperation`), the cached record
store (`readFile` / `writeFile`), the message-segment shard manager
(`createMessage` / `createMessagesBatch` / `shouldCreateNewMessageFile`),
the cross-shard reader (`findMessagesByRoomId`), bulk deletion
(`deleteMessagesByRoomId`) and batched user creation (`createUsersBatch`),
together with theorems checking the specification's claims about them.
-/

namespace MiniTalk

/-! ### Resource Queue (`queueFileOperation`)

The source keeps, per file path, a promise `fileQueues.get(filePath)`;
`queueFileOperation` replaces it by
`currentQueue.then(() => operation()).catch(err => { log; throw err })`.

We embed the chain for one key as a list of operations executed in
submission order.  An operation acts on the per-key state `σ` and settles
either fulfilled (`true`) or rejected (`false`); an operation may have
mutated the state before rejecting, so it returns the state it leaves
behind in both cases.  Promise semantics of the built chain:

* if the predecessor settled fulfilled, the `then`-handler runs the
  operation, and the new chain promise adopts the operation's outcome
  (the `catch` handler rethrows, so a rejection stays a rejection);
* if the predecessor settled rejected, the `then`-handler is skipped
  (the operation never runs) and the new chain promise is rejected again.
-/

/-- One queued operation: from the current per-key state, produce the state
it leaves behind and whether it settled fulfilled (`true`) or rejected
(`false`). -/
@[reducible] def QueueOp (σ : Type u) : Type u := σ → σ × Bool

/-- Run a per-key promise chain: execute the submitted operations in
submission order starting from state `s`, with `status` the settlement of
the chain promise the first operation is chained onto (`true` = fulfilled,
which is how a key's chain starts, from `Promise.resolve()`).  Returns the
final state, the settlement of the last chain promise, and one flag per
operation recording whether its `then`-handler actually ran. -/
def runChain {σ : Type u} : List (QueueOp σ) → σ → Bool → σ × Bool × List Bool
  | [], s, status => (s, status, [])
  | op :: rest, s, status =>
    if status then
      let r := op s
      let t := runChain rest r.1 r.2
      (t.1, t.2.1, true :: t.2.2)
    else
      let t := runChain rest s false
      (t.1, t.2.1, false :: t.2.2)

/-- A rejected chain runs nothing: every later operation is skipped and the
state never changes again. -/
theorem runChain_rejected {σ : Type u} (ops : List (QueueOp σ)) (s : σ) :
    runChain ops s false = (s, false, List.replicate ops.length false) := by
  induction ops with
  | nil => rfl
  | cons op rest ih => simp [runChain, ih, List.replicate_succ]

/-- Chain execution splits along list append. -/
theorem runChain_append {σ : Type u} (xs ys : List (QueueOp σ)) (s : σ) (st : Bool) :
    runChain (xs ++ ys) s st =
      ((runChain ys (runChain xs s st).1 (runChain xs s st).2.1).1,
       (runChain ys (runChain xs s st).1 (runChain xs s st).2.1).2.1,
       (runChain xs s st).2.2 ++ (runChain ys (runChain xs s st).1 (runChain xs s st).2.1).2.2) := by
  induction xs generalizing s st with
  | nil => simp [runChain]
  | cons op rest ih =>
    by_cases h : st
    · simp only [h, List.cons_append, runChain, if_true, List.append_eq, ih]
    · simp only [Bool.not_eq_true] at h
      simp only [h, List.cons_append, runChain, if_false, Bool.false_eq_true,
        List.append_eq, ih]

/-- An always-succeeding operation that appends one tagged record to the
collection (the per-key state is the list of records of that file). -/
def appendOp {α : Type u} (tag : α) : QueueOp (List α) :=
  fun records => (records ++ [tag], true)

/-- Appending operations submitted in order extend the collection in that
same order, each one running. -/
theorem runChain_appendOps {α : Type u} (tags : List α) (l : List α) :
    runChain (tags.map appendOp) l true =
      (l ++ tags, true, List.replicate tags.length true) := by
  induction tags generalizing l with
  | nil => simp [runChain]
  | cons t rest ih => simp [runChain, appendOp, ih, List.replicate_succ]

/-- C1: operations enqueued for one key via the per-key queue execute in
submission order, one after the other; submitting `N` always-succeeding
operations that each append one uniquely-tagged record to the (initially
empty) collection leaves exactly the `N` submitted records, in submission
order, with no interleaving and no loss — and every operation ran. -/
theorem C1_queue_serialization {α : Type u} (tags : List α) :
    runChain (tags.map appendOp) ([] : List α) true =
      (tags, true, List.replicate tags.length true) := by
  simpa using runChain_appendOps tags []

/-- C2: once an enqueued operation rejects, the rejected chain promise gates
every later submission for that key: none of the operations enqueued
afterwards ever executes, the state stays as the failing operation left it,
and the chain stays rejected. -/
theorem C2_failure_stalls_queue {σ : Type u}
    (ops₁ ops₂ : List (QueueOp σ)) (f : QueueOp σ) (s₀ : σ)
    (hok : (runChain ops₁ s₀ true).2.1 = true)
    (hfail : (f (runChain ops₁ s₀ true).1).2 = false) :
    runChain (ops₁ ++ f :: ops₂) s₀ true =
      ((f (runChain ops₁ s₀ true).1).1, false,
        (runChain ops₁ s₀ true).2.2 ++ true :: List.replicate ops₂.length false) := by
  rw [runChain_append]
  simp [runChain, hok, hfail, runChain_rejected]

/-- Witness for C2 at a concrete chain: one successful append, then a
rejecting operation, then one more append.  The final append is skipped,
the collection keeps only the first record, and the chain ends rejected. -/
theorem C2_failure_stalls_queue_witness :
    runChain ([appendOp 7] ++ ((fun l => (l, false)) : QueueOp (List Nat)) :: [appendOp 9])
        ([] : List Nat) true =
      ([7], false, [true, true, false]) := by
  have h := C2_failure_stalls_queue [appendOp 7] [appendOp 9]
    ((fun l => (l, false)) : QueueOp (List Nat)) ([] : List Nat) (by decide) (by decide)
  simpa using h

/-! ### Ingestion Batcher (`MessageProcessor`)

The socket handler's `MessageProcessor` keeps `messageQueue` (an array of
pending message payloads), a `processing` flag, and `stats.processed`.
`queueMessage` pushes onto the queue; `flushMessages` exits early if a
flush is in-flight or the queue is empty, splices the first `batchSize`
entries off the queue, persists them via `createMessagesBatch`, and on
success broadcasts each saved record in buffered order; on persistence
failure the `catch` block only logs (and reports to the tracer) — the
spliced-off batch is *not* pushed back onto the queue — and the `finally`
block clears the `processing` flag either way.  The outcome of the durable
write is a parameter of the embedding (`persistOk`). -/

/-- Pending message payload buffered by the processor. -/
structure MsgData where
  roomId : String
  sender : String
  content : String
  timestamp : Nat
  deriving DecidableEq, Repr

/-- State of the message processor: the pending buffer, the in-flight
flag, and the `stats.processed` counter. -/
structure ProcState where
  messageQueue : List MsgData
  processing : Bool
  processed : Nat
  deriving DecidableEq, Repr

/-- Embedding of `MessageProcessor.flushMessages`, with `persistOk` the
outcome of the `createMessagesBatch` call.  Returns the state after the
flush settles together with the list of records broadcast (fanned out) by
this flush, in buffered order. -/
def flushMessages (st : ProcState) (batchSize : Nat) (persistOk : Bool) :
    ProcState × List MsgData :=
  if st.processing ∨ st.messageQueue = [] then (st, [])
  else
    let batch := st.messageQueue.take batchSize
    let rest := st.messageQueue.drop batchSize
    if persistOk then
      (⟨rest, false, st.processed + batch.length⟩, batch)
    else
      (⟨rest, false, st.processed⟩, [])

/-- C3 counterexample: one pending record, idle processor, and a failing
durable write.  After the flush settles the buffer is empty — the failed
batch's record was dropped, not returned to the front of the buffer as the
claim states — so nothing is left for a later flush to retry. -/
theorem C3_counterexample :
    (flushMessages ⟨[⟨"r1", "alice", "hi", 1⟩], false, 0⟩ 100000 false).1.messageQueue = [] ∧
      (flushMessages ⟨[⟨"r1", "alice", "hi", 1⟩], false, 0⟩ 100000 false).1.messageQueue ≠
        [⟨"r1", "alice", "hi", 1⟩] := by
  constructor
  · rfl
  · decide

/-- C3 amended: if the durable batched write fails during a flush, the
spliced-off batch is discarded — the buffer keeps only the records beyond
the first `batchSize`, nothing is broadcast, the processed counter is
unchanged, and the flush itself settles normally with the `processing`
flag cleared (the error is only logged, never propagated to the enqueue
caller). -/
theorem C3_failed_flush_drops_batch (st : ProcState) (batchSize : Nat)
    (hidle : st.processing = false) (hne : st.messageQueue ≠ []) :
    flushMessages st batchSize false =
      (⟨st.messageQueue.drop batchSize, false, st.processed⟩, []) := by
  simp [flushMessages, hidle, hne]

/-- Witness for the amended C3: flushing a two-record buffer with batch
size 100000 and a failing write drops both records and broadcasts
nothing. -/
theorem C3_failed_flush_drops_batch_witness :
    flushMessages ⟨[⟨"r1", "a", "x", 1⟩, ⟨"r1", "b", "y", 2⟩], false, 5⟩ 100000 false =
      (⟨[], false, 5⟩, []) := by
  have h := C3_failed_flush_drops_batch
    ⟨[⟨"r1", "a", "x", 1⟩, ⟨"r1", "b", "y", 2⟩], false, 5⟩ 100000 rfl (by decide)
  simpa using h

/-! ### Shard Manager (message segment files)

`FileDataManager` keeps `currentMessageFileIndex` (segment numbering starts
at 1), the per-segment file contents, and `maxMessagesPerFile`.
`getCurrentMessageFile()` names the file of the current index;
`shouldCreateNewMessageFile()` reads the current segment and reports
`messages.length >= maxMessagesPerFile`; `createNewMessageFile()`
increments the index (the fresh segment starts empty).

`createMessage` captures `getCurrentMessageFile()` as the queue key, then
inside the queued operation possibly rolls over, reads the now-active
file, appends the one record, and writes the active file back.
`createMessagesBatch` captures the queue key the same way, then walks the
batch: whenever the in-memory segment is full it writes it out, rolls to a
fresh segment, and continues, writing the active segment at the end.
Reads go through the cache, which every write refreshes synchronously, so
under queue serialization a read returns the file's current contents; the
embedding uses that coherent value directly. -/

/-- Persisted chat message record. -/
structure Message where
  id : String
  roomId : String
  sender : String
  content : String
  timestamp : Nat
  deriving DecidableEq, Repr

/-- Shard-manager state: the current segment index, the contents of every
segment file (`[]` for segments not yet written), and the capacity. -/
structure ShardState where
  currentMessageFileIndex : Nat
  files : Nat → List Message
  maxMessagesPerFile : Nat

/-- Pointwise update of the segment-file map. -/
def updFiles (f : Nat → List Message) (i : Nat) (v : List Message) : Nat → List Message :=
  fun j => if j = i then v else f j

theorem updFiles_same (f : Nat → List Message) (i : Nat) (v w : List Message) :
    updFiles (updFiles f i v) i w = updFiles f i w := by
  funext j
  by_cases h : j = i <;> simp [updFiles, h]

/-- Embedding of `shouldCreateNewMessageFile`: the current segment holds at
least `maxMessagesPerFile` records. -/
def shouldCreateNewMessageFile (st : ShardState) : Bool :=
  st.maxMessagesPerFile ≤ (st.files st.currentMessageFileIndex).length

/-- Embedding of one `createMessage` invocation's queued operation: roll
over if the current segment is full, then append the record to the active
segment and write it back. -/
def createMessageStep (st : ShardState) (m : Message) : ShardState :=
  let st₁ := if shouldCreateNewMessageFile st then
      { st with currentMessageFileIndex := st.currentMessageFileIndex + 1 }
    else st
  let act := st₁.currentMessageFileIndex
  { st₁ with files := updFiles st₁.files act (st₁.files act ++ [m]) }

/-- Intermediate state of the `createMessagesBatch` append loop: the active
segment index, the in-memory record list for it, the segment files, and
the log of `writeFile` calls performed so far (file index and content). -/
structure BatchLoop where
  act : Nat
  cur : List Message
  files : Nat → List Message
  writes : List (Nat × List Message)

/-- One iteration of the `createMessagesBatch` loop body: if the in-memory
segment is full, write it out, roll to the next (empty) segment, then push
the record. -/
def batchStep (maxPerFile : Nat) (ls : BatchLoop) (m : Message) : BatchLoop :=
  let ls := if maxPerFile ≤ ls.cur.length then
      ⟨ls.act + 1, [], updFiles ls.files ls.act ls.cur, ls.writes ++ [(ls.act, ls.cur)]⟩
    else ls
  { ls with cur := ls.cur ++ [m] }

/-- Result of one `createMessagesBatch` invocation: the final shard state,
the log of files written (in order), and the file index captured as the
Resource Queue key when the operation was enqueued. -/
structure BatchRun where
  state : ShardState
  writes : List (Nat × List Message)
  enqueueKey : Nat

/-- Embedding of one `createMessagesBatch` invocation: the queue key is the
current segment at enqueue time; the loop appends the already-built
records, rolling over as segments fill; the active segment is written at
the end. -/
def createMessagesBatchRun (st : ShardState) (msgs : List Message) : BatchRun :=
  let key := st.currentMessageFileIndex
  let ls := msgs.foldl (batchStep st.maxMessagesPerFile) ⟨key, st.files key, st.files, []⟩
  { state := ⟨ls.act, updFiles ls.files ls.act ls.cur, st.maxMessagesPerFile⟩
    writes := ls.writes ++ [(ls.act, ls.cur)]
    enqueueKey := key }

/-- C4 evaluated at the failing input: with capacity 1 and segment 1 already
full, a one-record `createMessagesBatch` is enqueued under the key of
segment 1, yet it writes segment 2 — a durable write whose target file
differs from the key serializing it, so the write to the new segment is not
gated by that segment's own queue. -/
theorem C4_rollover_write_escapes_queue_key :
    (createMessagesBatchRun
        ⟨1, updFiles (fun _ => []) 1 [⟨"i0", "r1", "a", "x", 1⟩], 1⟩
        [⟨"i1", "r1", "b", "y", 2⟩]).enqueueKey = 1 ∧
      (createMessagesBatchRun
        ⟨1, updFiles (fun _ => []) 1 [⟨"i0", "r1", "a", "x", 1⟩], 1⟩
        [⟨"i1", "r1", "b", "y", 2⟩]).writes =
        [(1, [⟨"i0", "r1", "a", "x", 1⟩]), (2, [⟨"i1", "r1", "b", "y", 2⟩])] ∧
      ∃ w ∈ (createMessagesBatchRun
        ⟨1, updFiles (fun _ => []) 1 [⟨"i0", "r1", "a", "x", 1⟩], 1⟩
        [⟨"i1", "r1", "b", "y", 2⟩]).writes,
          w.1 ≠ (createMessagesBatchRun
            ⟨1, updFiles (fun _ => []) 1 [⟨"i0", "r1", "a", "x", 1⟩], 1⟩
            [⟨"i1", "r1", "b", "y", 2⟩]).enqueueKey := by
  have hw : (createMessagesBatchRun
      ⟨1, updFiles (fun _ => []) 1 [⟨"i0", "r1", "a", "x", 1⟩], 1⟩
      [⟨"i1", "r1", "b", "y", 2⟩]).writes =
      [(1, [⟨"i0", "r1", "a", "x", 1⟩]), (2, [⟨"i1", "r1", "b", "y", 2⟩])] := by
    decide
  have hk : (createMessagesBatchRun
      ⟨1, updFiles (fun _ => []) 1 [⟨"i0", "r1", "a", "x", 1⟩], 1⟩
      [⟨"i1", "r1", "b", "y", 2⟩]).enqueueKey = 1 := rfl
  refine ⟨hk, hw, ⟨(2, [⟨"i1", "r1", "b", "y", 2⟩]), ?_, ?_⟩⟩
  · rw [hw]; simp
  · rw [hk]; decide

/-- Appending records one at a time never rolls over while they fit in the
current segment: the segment accumulates them in order and the index stays
put. -/
theorem foldl_createMessageStep_fits (maxN : Nat) :
    ∀ (ms cur : List Message) (f : Nat → List Message),
      cur.length + ms.length ≤ maxN →
      ms.foldl createMessageStep ⟨1, updFiles f 1 cur, maxN⟩ =
        ⟨1, updFiles f 1 (cur ++ ms), maxN⟩ := by
  intro ms
  induction ms with
  | nil => intro cur f _; simp
  | cons m rest ih =>
    intro cur f h
    have h' : cur.length + (rest.length + 1) ≤ maxN := by simpa using h
    have hlt : ¬ maxN ≤ cur.length := by omega
    have hstep : createMessageStep ⟨1, updFiles f 1 cur, maxN⟩ m =
        ⟨1, updFiles f 1 (cur ++ [m]), maxN⟩ := by
      simp [createMessageStep, shouldCreateNewMessageFile, updFiles_same, hlt, updFiles]
    rw [List.foldl_cons, hstep, ih (cur ++ [m]) f (by simp; omega)]
    simp

/-- C5: appending `maxMessagesPerFile + 1` records one at a time through
`createMessage` to an empty message collection fills segment 1 with
exactly the first `maxMessagesPerFile` records, then the rollover check
fires and the last record lands in the freshly created segment 2: segment
1 holds exactly `maxMessagesPerFile` records and segment 2 exactly one,
with the index now at 2. -/
theorem C5_segment_rollover_split (maxN : Nat) (ms : List Message)
    (h : ms.length = maxN + 1) :
    ((ms.foldl createMessageStep ⟨1, fun _ => [], maxN⟩).files 1 = ms.take maxN ∧
      (ms.foldl createMessageStep ⟨1, fun _ => [], maxN⟩).files 2 = ms.drop maxN) ∧
      ((ms.foldl createMessageStep ⟨1, fun _ => [], maxN⟩).files 1).length = maxN ∧
      ((ms.foldl createMessageStep ⟨1, fun _ => [], maxN⟩).files 2).length = 1 ∧
      (ms.foldl createMessageStep ⟨1, fun _ => [], maxN⟩).currentMessageFileIndex = 2 := by
  have hemp : (fun _ => ([] : List Message)) = updFiles (fun _ => []) 1 [] := by
    funext j; simp [updFiles]
  obtain ⟨m, hm⟩ : ∃ m, ms.drop maxN = [m] := by
    have : (ms.drop maxN).length = 1 := by simp [h]
    match hd : ms.drop maxN with
    | [] => simp [hd] at this
    | [m] => exact ⟨m, rfl⟩
    | a :: b :: t => simp [hd] at this
  have hsplit : ms = ms.take maxN ++ [m] := by
    conv_lhs => rw [← List.take_append_drop maxN ms]
    rw [hm]
  have htake : (ms.take maxN).length = maxN := by
    simp [h]
  have h₁ : (ms.take maxN).foldl createMessageStep ⟨1, fun _ => [], maxN⟩ =
      ⟨1, updFiles (fun _ => []) 1 (ms.take maxN), maxN⟩ := by
    have hfit := foldl_createMessageStep_fits maxN (ms.take maxN) [] (fun _ => [])
      (by simp [htake])
    rw [← hemp] at hfit
    simpa using hfit
  have hfull : ms.foldl createMessageStep ⟨1, fun _ => [], maxN⟩ =
      createMessageStep ⟨1, updFiles (fun _ => []) 1 (ms.take maxN), maxN⟩ m := by
    conv_lhs => rw [hsplit]
    rw [List.foldl_append, h₁]
    simp
  have hroll : createMessageStep ⟨1, updFiles (fun _ => []) 1 (ms.take maxN), maxN⟩ m =
      ⟨2, updFiles (updFiles (fun _ => []) 1 (ms.take maxN)) 2 [m], maxN⟩ := by
    simp [createMessageStep, shouldCreateNewMessageFile, htake, updFiles]
  rw [hfull, hroll]
  refine ⟨⟨?_, ?_⟩, ?_, ?_, rfl⟩ <;> simp [updFiles, hm, htake]

/-- Witness for C5 at capacity 2 with three concrete records: segment 1
ends with the first two, segment 2 with the third. -/
theorem C5_segment_rollover_split_witness :
    (([⟨"a", "r", "u", "1", 1⟩, ⟨"b", "r", "u", "2", 2⟩,
        ⟨"c", "r", "u", "3", 3⟩] : List Message).foldl
          createMessageStep ⟨1, fun _ => [], 2⟩).files 1 =
        [⟨"a", "r", "u", "1", 1⟩, ⟨"b", "r", "u", "2", 2⟩] ∧
      (([⟨"a", "r", "u", "1", 1⟩, ⟨"b", "r", "u", "2", 2⟩,
        ⟨"c", "r", "u", "3", 3⟩] : List Message).foldl
          createMessageStep ⟨1, fun _ => [], 2⟩).files 2 = [⟨"c", "r", "u", "3", 3⟩] := by
  have h := C5_segment_rollover_split 2
    [⟨"a", "r", "u", "1", 1⟩, ⟨"b", "r", "u", "2", 2⟩, ⟨"c", "r", "u", "3", 3⟩] rfl
  exact ⟨h.1.1, h.1.2⟩

/-! ### Cached Record Store (`readFile` / `writeFile`)

The store keeps `cache` and `lastCacheUpdate` maps keyed by file path, an
`activeReads` counter per path, `cacheTimeout` (3000 ms in the source) and
`maxConcurrentReads` (5 in the source).  `readFile` captures
`now = Date.now()`, serves the cache when
`lastUpdate && (now - lastUpdate) < cacheTimeout && cache.has(key)` (note
the JS truthiness test on the stored millisecond value, modelled as
`t ≠ 0`, and the signed subtraction, modelled over `Int`); when
`activeReads ≥ maxConcurrentReads` it serves a stale cache entry if one
exists, else backs off briefly and proceeds; otherwise it performs the
physical read, and on success replaces the cache entry with the parsed
value stamped with the captured `now`.  On a failed physical read it falls
back to the stale cache entry, else to an empty collection.  The `finally`
block restores `activeReads` to its prior value, so the embedding leaves
that field unchanged.  `writeFile` writes a temp file and atomically
renames it, then on success synchronously replaces the cache entry with
the written value and a fresh timestamp; on failure it rethrows with cache
and target file untouched.  The outcome of the physical I/O is a parameter
of the embedding. -/

/-- Cached-store state.  Collections are JSON arrays, so values are lists
of records of type `β`. -/
structure CacheStore (β : Type u) where
  cache : String → Option (List β)
  lastCacheUpdate : String → Option Nat
  activeReads : String → Nat
  cacheTimeout : Nat
  maxConcurrentReads : Nat

/-- Replace the cache entry of `k` with value `v` stamped at time `t`. -/
def setCache {β : Type u} (st : CacheStore β) (k : String) (v : List β) (t : Nat) :
    CacheStore β :=
  { st with
    cache := fun j => if j = k then some v else st.cache j
    lastCacheUpdate := fun j => if j = k then some t else st.lastCacheUpdate j }

/-- Result of one `readFile` call: the returned value, the store it leaves
behind, and whether a physical file read was performed. -/
structure ReadOutcome (β : Type u) where
  value : List β
  store : CacheStore β
  physical : Bool

/-- Embedding of the `readFile` cache test
`lastUpdate && (now - lastUpdate) < cacheTimeout && cache.has(key)`. -/
def cacheHit {β : Type u} (st : CacheStore β) (k : String) (now : Nat) : Bool :=
  match st.lastCacheUpdate k with
  | none => false
  | some t =>
    decide (t ≠ 0) && decide ((now : Int) - t < (st.cacheTimeout : Int))
      && (st.cache k).isSome

/-- Embedding of one `readFile` call at time `now`; `fsResult` is the
outcome of the physical read (`some` parsed data, or `none` for a read or
parse error), consulted only if the call reaches the physical read. -/
def readFileRun {β : Type u} (st : CacheStore β) (k : String) (now : Nat)
    (fsResult : Option (List β)) : ReadOutcome β :=
  if cacheHit st k now then
    ⟨(st.cache k).getD [], st, false⟩
  else if st.maxConcurrentReads ≤ st.activeReads k ∧ (st.cache k).isSome then
    ⟨(st.cache k).getD [], st, false⟩
  else
    match fsResult with
    | some data => ⟨data, setCache st k data now, true⟩
    | none =>
      match st.cache k with
      | some v => ⟨v, st, true⟩
      | none => ⟨[], st, true⟩

/-- Embedding of one `writeFile` call at time `now`; `fsOk` is the outcome
of the temp-write-and-rename.  On success the cache entry is refreshed
synchronously; on failure the error is rethrown and nothing changes. -/
def writeFileRun {β : Type u} (st : CacheStore β) (k : String) (data : List β)
    (now : Nat) (fsOk : Bool) : Except Unit (CacheStore β) :=
  if fsOk then .ok (setCache st k data now) else .error ()

/-- Within the freshness window, a read of a key whose cache entry was
stamped at a positive time `t` is a pure cache hit. -/
theorem readFileRun_fresh {β : Type u} (st : CacheStore β) (k : String)
    (d : List β) (t t' : Nat) (fs : Option (List β))
    (ht : 0 < t) (hle : t ≤ t') (hwin : t' - t < st.cacheTimeout) :
    readFileRun (setCache st k d t) k t' fs = ⟨d, setCache st k d t, false⟩ := by
  have hcache : (setCache st k d t).cache k = some d := by simp [setCache]
  have hlast : (setCache st k d t).lastCacheUpdate k = some t := by simp [setCache]
  have hhit : cacheHit (setCache st k d t) k t' = true := by
    have ht0 : t ≠ 0 := by omega
    have hint : (t' : Int) - t < (st.cacheTimeout : Int) := by omega
    simp [cacheHit, hlast, hcache, ht0, setCache] at hint ⊢
    exact hint
  unfold readFileRun
  rw [if_pos hhit]
  simp [hcache]

/-- After a physical read of `k` at time `t` succeeds with data `d`, the
store holds `d` stamped at `t` for key `k`. -/
theorem readFileRun_store_of_physical {β : Type u} (st : CacheStore β) (k : String)
    (t : Nat) (d : List β)
    (hphys : (readFileRun st k t (some d)).physical = true) :
    (readFileRun st k t (some d)).store = setCache st k d t := by
  by_cases h1 : cacheHit st k t = true
  · exfalso
    unfold readFileRun at hphys
    rw [if_pos h1] at hphys
    simp at hphys
  · by_cases h2 : st.maxConcurrentReads ≤ st.activeReads k ∧ (st.cache k).isSome = true
    · exfalso
      unfold readFileRun at hphys
      rw [if_neg h1, if_pos h2] at hphys
      simp at hphys
    · unfold readFileRun
      rw [if_neg h1, if_neg h2]

/-- C6: if a `readFile` of key `k` completes a successful physical read at
time `t > 0`, then a read of `k` at any `t'` within `cacheTimeout` of `t`
returns the cached value, performs no physical read, and leaves the store
untouched (so every read in the window behaves the same); and a read of
`k` once `cacheTimeout` has elapsed since the last refresh — with the
per-key read throttle not saturated — performs a physical read again. -/
theorem C6_cache_freshness_window {β : Type u} (st : CacheStore β) (k : String)
    (t t' u u' : Nat) (d : List β) (fs₁ fs₂ : Option (List β)) :
    ((readFileRun st k t (some d)).physical = true → 0 < t → t ≤ t' →
      t' - t < st.cacheTimeout →
      readFileRun (readFileRun st k t (some d)).store k t' fs₁ =
        ⟨d, (readFileRun st k t (some d)).store, false⟩) ∧
    (st.lastCacheUpdate k = some u → u ≤ u' → st.cacheTimeout ≤ u' - u →
      st.activeReads k < st.maxConcurrentReads →
      (readFileRun st k u' fs₂).physical = true) := by
  constructor
  · intro hphys ht hle hwin
    rw [readFileRun_store_of_physical st k t d hphys]
    exact readFileRun_fresh st k d t t' fs₁ ht hle hwin
  · intro hlast hle hexp hactive
    have hmiss : cacheHit st k u' = false := by
      simp only [cacheHit, hlast]
      have : ¬ ((u' : Int) - u < (st.cacheTimeout : Int)) := by omega
      simp [this]
    have hA : ¬ st.maxConcurrentReads ≤ st.activeReads k := by omega
    cases fs₂ with
    | some data => simp [readFileRun, hmiss, hA]
    | none =>
      cases hc : st.cache k with
      | some v => simp [readFileRun, hmiss, hA, hc]
      | none => simp [readFileRun, hmiss, hA, hc]

/-- Store used to instantiate the cache theorems: empty cache, idle
readers, the source's 3000 ms timeout and 5-reader throttle. -/
def sampleStore : CacheStore Nat :=
  ⟨fun _ => none, fun _ => none, fun _ => 0, 3000, 5⟩

/-- Witness for C6: a physical read of `users.json` at t = 100 caches
`[1, 2]`; a read at t = 200 is a pure cache hit, and a read at t = 4000
(3900 ms after the refresh) goes back to disk. -/
theorem C6_cache_freshness_window_witness :
    readFileRun (readFileRun sampleStore "users.json" 100 (some [1, 2])).store
        "users.json" 200 none =
      ⟨[1, 2], (readFileRun sampleStore "users.json" 100 (some [1, 2])).store, false⟩ ∧
    (readFileRun (readFileRun sampleStore "users.json" 100 (some [1, 2])).store
        "users.json" 4000 (some [9])).physical = true := by
  constructor
  · exact (C6_cache_freshness_window sampleStore "users.json" 100 200 0 0 [1, 2]
      none none).1 (by decide) (by decide) (by decide) (by decide)
  · exact (C6_cache_freshness_window
      (readFileRun sampleStore "users.json" 100 (some [1, 2])).store "users.json"
      0 0 100 4000 [] none (some [9])).2 (by decide) (by decide) (by decide) (by decide)

/-- C7: a successful `writeFile` of collection `data` under key `k` at time
`t > 0` synchronously installs `data` in the cache with timestamp `t`, so
a `readFile` of `k` at any `t'` before the cache expires returns exactly
`data` without touching the disk. -/
theorem C7_write_read_round_trip {β : Type u} (st st' : CacheStore β) (k : String)
    (data : List β) (t t' : Nat) (fsOk : Bool) (fs : Option (List β))
    (hw : writeFileRun st k data t fsOk = .ok st')
    (ht : 0 < t) (hle : t ≤ t') (hwin : t' - t < st.cacheTimeout) :
    readFileRun st' k t' fs = ⟨data, st', false⟩ := by
  cases fsOk with
  | false => simp [writeFileRun] at hw
  | true =>
    simp only [writeFileRun, if_pos] at hw
    cases hw
    exact readFileRun_fresh st k data t t' fs ht hle hwin

/-- Witness for C7: writing `[3, 4]` to `users.json` at t = 50 and reading
it back at t = 60 returns `[3, 4]` from the cache. -/
theorem C7_write_read_round_trip_witness :
    readFileRun (setCache sampleStore "users.json" [3, 4] 50) "users.json" 60 none =
      ⟨[3, 4], setCache sampleStore "users.json" [3, 4] 50, false⟩ := by
  exact C7_write_read_round_trip sampleStore
    (setCache sampleStore "users.json" [3, 4] 50) "users.json" [3, 4] 50 60 true none
    rfl (by decide) (by decide) (by decide)

/-! ### Cross-Shard Reader (`findMessagesByRoomId`)

The reader enumerates all message segment files in index order, reads each
one through the cached store (a per-file read error is caught and the file
skipped — and `readFile` itself already falls back to `[]`, so a segment
contributes the list its read produced), filters each file's records by
`message.roomId === roomId`, concatenates, then applies
`if (options.since)` a strict `new Date(timestamp) > new Date(since)`
filter, sorts by timestamp ascending with the (stable) array sort, and
applies `if (options.limit)` a `slice(0, limit)` truncation.  Timestamps
are ISO date strings ordered like their millisecond values, modelled as
`Nat`.  A present `since` is a (truthy) date string, modelled as
`some s`; `limit` is a number, whose JS truthiness test makes `0` behave
as "no limit", which the embedding keeps. -/

/-- Timestamp comparison used by the sort. -/
def msgLE (a b : Message) : Bool := decide (a.timestamp ≤ b.timestamp)

/-- Records of the room collected across all segment files, in segment
order: per-file `roomId` filter, then concatenation. -/
def collectRoom (segments : List (List Message)) (roomId : String) : List Message :=
  (segments.map (fun seg => seg.filter (fun m => m.roomId == roomId))).flatten

/-- Predicate form of the `since` filter (`true` when no `since` given). -/
def sinceKeep (since : Option Nat) (m : Message) : Bool :=
  match since with
  | some s => decide (s < m.timestamp)
  | none => true

/-- Embedding of `findMessagesByRoomId`. -/
def findMessagesByRoomId (segments : List (List Message)) (roomId : String)
    (since : Option Nat) (limit : Option Nat) : List Message :=
  let filtered : List Message := match since with
    | some s => (collectRoom segments roomId).filter (fun m => decide (s < m.timestamp))
    | none => collectRoom segments roomId
  let sorted := filtered.mergeSort msgLE
  match limit with
  | some l => if l ≠ 0 then sorted.take l else sorted
  | none => sorted

/-- The two `since` branches of the reader agree with one filter by
`sinceKeep`. -/
theorem sinceBranch_eq (segments : List (List Message)) (roomId : String)
    (since : Option Nat) :
    (match since with
      | some s => (collectRoom segments roomId).filter (fun m => decide (s < m.timestamp))
      | none => collectRoom segments roomId) =
      (collectRoom segments roomId).filter (sinceKeep since) := by
  cases since with
  | none =>
    rw [show (sinceKeep (none : Option Nat)) = (fun _ : Message => true) from rfl,
      List.filter_true]
  | some s => rfl

theorem findMessagesByRoomId_none (segments : List (List Message)) (roomId : String)
    (since : Option Nat) :
    findMessagesByRoomId segments roomId since none =
      ((collectRoom segments roomId).filter (sinceKeep since)).mergeSort msgLE := by
  unfold findMessagesByRoomId
  rw [sinceBranch_eq]

/-- C8 counterexample: one matching record and an explicitly given
`limit = 0`.  The claim calls for truncation to the first 0 elements
(the empty list), but `if (options.limit)` treats the falsy `0` as "no
limit given" and the record is returned. -/
theorem C8_counterexample :
    findMessagesByRoomId [[⟨"a", "r", "u", "hi", 5⟩]] "r" none (some 0) =
        [⟨"a", "r", "u", "hi", 5⟩] ∧
      findMessagesByRoomId [[⟨"a", "r", "u", "hi", 5⟩]] "r" none (some 0) ≠
        ([] : List Message) := by
  have h : findMessagesByRoomId [[⟨"a", "r", "u", "hi", 5⟩]] "r" none (some 0) =
      [⟨"a", "r", "u", "hi", 5⟩] := by
    simp [findMessagesByRoomId, collectRoom]
  exact ⟨h, by rw [h]; decide⟩

/-- C8 amended: `findMessagesByRoomId` returns exactly the records with
matching `roomId` drawn from all segment files, keeping only those with
timestamp strictly after `since` when `since` is given, sorted by
timestamp ascending; when a *nonzero* `limit` is given the result is the
first `limit` elements of that sorted list, while a `limit` of `0` (falsy
in JS) is treated as no limit at all. -/
theorem C8_query_semantics (segments : List (List Message)) (roomId : String)
    (since : Option Nat) :
    (findMessagesByRoomId segments roomId since none).Pairwise
        (fun a b => a.timestamp ≤ b.timestamp) ∧
      List.Perm (findMessagesByRoomId segments roomId since none)
        ((collectRoom segments roomId).filter (sinceKeep since)) ∧
      (∀ m : Message, m ∈ findMessagesByRoomId segments roomId since none ↔
        ((∃ seg ∈ segments, m ∈ seg) ∧ m.roomId = roomId ∧ sinceKeep since m = true)) ∧
      (∀ l : Nat, l ≠ 0 →
        findMessagesByRoomId segments roomId since (some l) =
          (findMessagesByRoomId segments roomId since none).take l) ∧
      findMessagesByRoomId segments roomId since (some 0) =
        findMessagesByRoomId segments roomId since none := by
  have htrans : ∀ a b c : Message, msgLE a b → msgLE b c → msgLE a c := by
    intro a b c hab hbc
    simp only [msgLE, decide_eq_true_eq] at *
    omega
  have htotal : ∀ a b : Message, msgLE a b || msgLE b a := by
    intro a b
    simp only [msgLE, Bool.or_eq_true, decide_eq_true_eq]
    omega
  have hperm := List.mergeSort_perm
    ((collectRoom segments roomId).filter (sinceKeep since)) msgLE
  refine ⟨?_, ?_, ?_, ?_, ?_⟩
  · rw [findMessagesByRoomId_none]
    exact (List.sorted_mergeSort htrans htotal _).imp
      (fun h => by simpa [msgLE] using h)
  · rw [findMessagesByRoomId_none]
    exact hperm
  · intro m
    rw [findMessagesByRoomId_none]
    rw [hperm.mem_iff]
    simp only [List.mem_filter, collectRoom, List.mem_flatten, List.mem_map]
    constructor
    · rintro ⟨⟨l, ⟨seg, hseg, rfl⟩, hm⟩, hkeep⟩
      rcases List.mem_filter.mp hm with ⟨hmem, hroom⟩
      exact ⟨⟨seg, hseg, hmem⟩, by simpa using hroom, hkeep⟩
    · rintro ⟨⟨seg, hseg, hmem⟩, hroom, hkeep⟩
      exact ⟨⟨seg.filter (fun m => m.roomId == roomId), ⟨seg, hseg, rfl⟩,
        List.mem_filter.mpr ⟨hmem, by simpa using hroom⟩⟩, hkeep⟩
  · intro l hl
    rw [findMessagesByRoomId_none]
    unfold findMessagesByRoomId
    rw [sinceBranch_eq]
    simp [hl]
  · rw [findMessagesByRoomId_none]
    unfold findMessagesByRoomId
    rw [sinceBranch_eq]
    simp

/-- Witness for C8 at a concrete query: two matching records arriving out
of timestamp order across two segments plus one record of another room;
the unlimited result is sorted, `limit = 1` takes its first element, and
`limit = 0` changes nothing. -/
theorem C8_query_semantics_witness :
    findMessagesByRoomId [[⟨"2", "r", "u", "b", 2⟩, ⟨"3", "q", "u", "c", 3⟩],
        [⟨"1", "r", "u", "a", 1⟩]] "r" none (some 1) =
      (findMessagesByRoomId [[⟨"2", "r", "u", "b", 2⟩, ⟨"3", "q", "u", "c", 3⟩],
        [⟨"1", "r", "u", "a", 1⟩]] "r" none none).take 1 ∧
    (findMessagesByRoomId [[⟨"2", "r", "u", "b", 2⟩, ⟨"3", "q", "u", "c", 3⟩],
        [⟨"1", "r", "u", "a", 1⟩]] "r" none none).Pairwise
        (fun a b => a.timestamp ≤ b.timestamp) :=
  ⟨(C8_query_semantics [[⟨"2", "r", "u", "b", 2⟩, ⟨"3", "q", "u", "c", 3⟩],
      [⟨"1", "r", "u", "a", 1⟩]] "r" none).2.2.2.1 1 (by decide),
    (C8_query_semantics [[⟨"2", "r", "u", "b", 2⟩, ⟨"3", "q", "u", "c", 3⟩],
      [⟨"1", "r", "u", "a", 1⟩]] "r" none).1⟩

/-! ### Bulk purge (`deleteMessagesByRoomId`)

For every segment file, `deleteMessagesByRoomId` queues an operation that
reads the file, filters out the purged room's messages, and writes the
file back only when the filter removed something; the whole body sits
inside a `try`/`catch` whose handler only logs, so a failed read or a
failed (atomic, hence all-or-nothing) write leaves that file unchanged and
the loop moves on.  After the loop, the function returns `true`
unconditionally.  The per-file I/O outcome is a parameter of the
embedding (`true` = the file's read and any write succeeded). -/

/-- Effect of the queued purge operation on one segment file, given the
file's I/O outcome: on success, the file ends up holding the filtered
records (written when the count dropped, left as-is — which is the same
content — when nothing was removed); on a caught error, the file is
unchanged. -/
def purgeSegment (roomId : String) (seg : List Message) (ok : Bool) : List Message :=
  if ok then
    let filtered := seg.filter (fun m => !(m.roomId == roomId))
    if 0 < seg.length - filtered.length then filtered else seg
  else seg

/-- Loop of `deleteMessagesByRoomId` over the segment files paired with
their I/O outcomes, followed by the unconditional `return true`. -/
def deleteMessagesByRoomIdRun (segments : List (List Message)) (oks : List Bool)
    (roomId : String) : Bool × List (List Message) :=
  ((segments.zip oks).foldr (fun p acc => purgeSegment roomId p.1 p.2 :: acc) [], true).swap

/-- On a successful segment the purge leaves exactly the records of other
rooms. -/
theorem purgeSegment_ok (roomId : String) (seg : List Message) :
    purgeSegment roomId seg true = seg.filter (fun m => !(m.roomId == roomId)) := by
  unfold purgeSegment
  by_cases h : 0 < seg.length - (seg.filter (fun m => !(m.roomId == roomId))).length
  · simp [h]
  · have hlen : (seg.filter (fun m => !(m.roomId == roomId))).length = seg.length := by
      have := List.length_filter_le (fun m => !(m.roomId == roomId)) seg
      omega
    have := List.filter_length_eq_length.mp hlen
    simp [List.filter_eq_self.mpr this, h]

/-- C9: `deleteMessagesByRoomId` reports success unconditionally — the
returned flag is `true` whatever the per-segment I/O outcomes — while each
segment whose read or write failed keeps its old contents (possibly still
holding messages of the purged room, swallowed by the per-segment
`catch`), and each successful segment keeps exactly the other rooms'
messages. -/
theorem C9_delete_always_reports_success (segments : List (List Message))
    (oks : List Bool) (roomId : String) :
    (deleteMessagesByRoomIdRun segments oks roomId).1 = true ∧
      (deleteMessagesByRoomIdRun segments oks roomId).2 =
        (segments.zip oks).map (fun p =>
          if p.2 then p.1.filter (fun m => !(m.roomId == roomId)) else p.1) := by
  refine ⟨rfl, ?_⟩
  show (segments.zip oks).foldr _ [] = _
  induction segments.zip oks with
  | nil => rfl
  | cons p rest ih =>
    rw [List.foldr_cons, ih, List.map_cons]
    cases hb : p.2 with
    | false => simp [purgeSegment, hb]
    | true => simp [purgeSegment_ok, hb]

/-! ### Batched user creation (`createUsersBatch`)

One queued operation reads `users.json`, builds the set of existing
usernames, and processes the input entries in one of two modes:

* fast-hash mode (`NODE_ENV === 'test'` or `FAST_HASH === 'true'`):
  entries are processed sequentially; a username already in the set goes
  to `errors`, otherwise the user record is pushed and its username added
  to the set immediately, so later duplicates inside the batch are caught;
* production mode: entries are processed in chunks of 50; each chunk is
  mapped to promises that each check the set *when the promise starts* —
  all the checks of a chunk run before any of its results are merged, so
  the set grows only in the merge loop after `Promise.all` — and only
  then are the successful records pushed and their usernames added.

In both modes the final users array is persisted in a single write, and
the result `{created, errors}` is returned; nothing in the duplicate
handling throws.  Password hashing is an opaque function parameter. -/

/-- Input entry of `createUsersBatch`. -/
structure NewUserData where
  username : String
  password : String
  deriving DecidableEq, Repr

/-- Stored user record (identity and timestamps are irrelevant to the
claims and omitted). -/
structure UserRec where
  username : String
  password : String
  deriving DecidableEq, Repr

/-- Accumulator of the batch loops: the users array, the returned created
usernames and error usernames, and the `existingUsernames` set. -/
structure BatchAcc where
  users : List UserRec
  created : List String
  errors : List String
  existing : List String
  deriving DecidableEq, Repr

/-- Result of `createUsersBatch`: the collection persisted by the single
final write, the created usernames, and the error usernames. -/
structure BatchUsersResult where
  users : List UserRec
  created : List String
  errors : List String
  deriving DecidableEq, Repr

/-- One fast-hash-mode iteration: duplicate → error, otherwise create and
record the username immediately. -/
def fastStep (hash : String → String) (acc : BatchAcc) (u : NewUserData) : BatchAcc :=
  if u.username ∈ acc.existing then
    { acc with errors := acc.errors ++ [u.username] }
  else
    { acc with
      users := acc.users ++ [⟨u.username, hash u.password⟩]
      created := acc.created ++ [u.username]
      existing := acc.existing ++ [u.username] }

/-- Embedding of the fast-hash branch of `createUsersBatch`. -/
def createUsersBatchFast (hash : String → String) (stored : List UserRec)
    (input : List NewUserData) : BatchUsersResult :=
  let acc := input.foldl (fastStep hash)
    ⟨stored, [], [], stored.map (fun v => v.username)⟩
  ⟨acc.users, acc.created, acc.errors⟩

/-- Production-mode chunk phase: every entry of the chunk is checked
against the same `existing` set (the set as of the chunk's start), before
any merge. -/
def prodChunkResults (hash : String → String) (existing : List String)
    (chunk : List NewUserData) : List (String ⊕ UserRec) :=
  chunk.map (fun u =>
    if u.username ∈ existing then .inl u.username else .inr ⟨u.username, hash u.password⟩)

/-- Production-mode merge phase: fold the chunk's results into the
accumulator, growing the `existing` set only now. -/
def prodMerge (acc : BatchAcc) : List (String ⊕ UserRec) → BatchAcc
  | [] => acc
  | .inl e :: rest => prodMerge { acc with errors := acc.errors ++ [e] } rest
  | .inr v :: rest =>
      prodMerge
        { acc with
          users := acc.users ++ [v]
          created := acc.created ++ [v.username]
          existing := acc.existing ++ [v.username] } rest

/-- Production-mode chunk loop (`batchSize = 50`), fuelled by the input
length so the recursion is structural; each round consumes at least one
entry, so fuel `input.length` never runs out. -/
def prodLoop (hash : String → String) : Nat → BatchAcc → List NewUserData → BatchAcc
  | _, acc, [] => acc
  | 0, acc, _ => acc
  | fuel + 1, acc, u :: rest =>
      prodLoop hash fuel
        (prodMerge acc (prodChunkResults hash acc.existing ((u :: rest).take 50)))
        ((u :: rest).drop 50)

/-- Embedding of the production branch of `createUsersBatch`. -/
def createUsersBatchProd (hash : String → String) (stored : List UserRec)
    (input : List NewUserData) : BatchUsersResult :=
  let acc := prodLoop hash input.length
    ⟨stored, [], [], stored.map (fun v => v.username)⟩ input
  ⟨acc.users, acc.created, acc.errors⟩

/-- C10 counterexample: in production mode (the deployed configuration,
`NODE_ENV=production`), a batch containing the same fresh username twice
within one 50-entry chunk creates *both* entries and reports *no* error —
the second occurrence is not in the errors list as the claim requires,
because both duplicate checks ran before either result was merged into
the username set. -/
theorem C10_counterexample :
    (createUsersBatchProd (fun s => s) []
        [⟨"bob", "x"⟩, ⟨"bob", "y"⟩]).errors = [] ∧
      (createUsersBatchProd (fun s => s) []
        [⟨"bob", "x"⟩, ⟨"bob", "y"⟩]).created = ["bob", "bob"] ∧
      (createUsersBatchProd (fun s => s) []
        [⟨"bob", "x"⟩, ⟨"bob", "y"⟩]).users =
        [⟨"bob", "x"⟩, ⟨"bob", "y"⟩] := by
  exact ⟨rfl, rfl, rfl⟩

/-- Fast-mode fold: the created usernames, the additions to the username
set, and the usernames appended to the users array are one and the same
fresh, duplicate-free list, and every input entry lands in exactly one of
`created` and `errors`. -/
theorem fast_delta (hash : String → String) :
    ∀ (input : List NewUserData) (acc : BatchAcc), ∃ δ : List String,
      (input.foldl (fastStep hash) acc).created = acc.created ++ δ ∧
      (input.foldl (fastStep hash) acc).existing = acc.existing ++ δ ∧
      (input.foldl (fastStep hash) acc).users.map (fun v => v.username) =
        acc.users.map (fun v => v.username) ++ δ ∧
      δ.Nodup ∧ (∀ x ∈ δ, x ∉ acc.existing) ∧
      (input.foldl (fastStep hash) acc).created.length +
          (input.foldl (fastStep hash) acc).errors.length =
        acc.created.length + acc.errors.length + input.length := by
  intro input
  induction input with
  | nil => exact fun acc => ⟨[], by simp⟩
  | cons u rest ih =>
    intro acc
    by_cases hmem : u.username ∈ acc.existing
    · obtain ⟨δ, h₁, h₂, h₃, h₄, h₅, h₆⟩ :=
        ih { acc with errors := acc.errors ++ [u.username] }
      refine ⟨δ, ?_, ?_, ?_, h₄, h₅, ?_⟩
      · simp_all [List.foldl_cons, fastStep, hmem]
      · simp_all [List.foldl_cons, fastStep, hmem]
      · simp_all [List.foldl_cons, fastStep, hmem]
      · simp_all [List.foldl_cons, fastStep, hmem]
        omega
    · obtain ⟨δ, h₁, h₂, h₃, h₄, h₅, h₆⟩ :=
        ih { acc with
          users := acc.users ++ [⟨u.username, hash u.password⟩]
          created := acc.created ++ [u.username]
          existing := acc.existing ++ [u.username] }
      refine ⟨u.username :: δ, ?_, ?_, ?_, ?_, ?_, ?_⟩
      · simp_all [List.foldl_cons, fastStep, hmem]
      · simp_all [List.foldl_cons, fastStep, hmem]
      · simp_all [List.foldl_cons, fastStep, hmem]
      · refine List.nodup_cons.mpr ⟨?_, h₄⟩
        intro hu
        have hnot := h₅ u.username hu
        simp at hnot
      · intro x hx
        rcases List.mem_cons.mp hx with rfl | hx'
        · exact hmem
        · intro hxe
          have hnot := h₅ x hx'
          simp at hnot
          exact hnot.1 hxe
      · simp_all [List.foldl_cons, fastStep, hmem]
        omega

/-- Fast-mode fold only ever appends to the errors list. -/
theorem fast_errors_mono (hash : String → String) :
    ∀ (input : List NewUserData) (acc : BatchAcc),
      acc.errors ⊆ (input.foldl (fastStep hash) acc).errors := by
  intro input
  induction input with
  | nil => exact fun acc => List.Subset.refl _
  | cons u rest ih =>
    intro acc x hx
    apply ih (fastStep hash acc u)
    unfold fastStep
    by_cases hmem : u.username ∈ acc.existing
    · simp only [hmem, if_pos]
      exact List.mem_append.mpr (Or.inl hx)
    · simp only [hmem, if_neg, not_false_iff]
      exact hx

/-- Fast mode reports every input entry whose username is already in the
set at the time that entry is processed. -/
theorem fast_dup_err (hash : String → String) :
    ∀ (input : List NewUserData) (acc : BatchAcc) (u : NewUserData),
      u ∈ input → u.username ∈ acc.existing →
      u.username ∈ (input.foldl (fastStep hash) acc).errors := by
  intro input
  induction input with
  | nil => intro _ _ h; exact absurd h (List.not_mem_nil _)
  | cons v rest ih =>
    intro acc u hu hex
    rcases List.mem_cons.mp hu with rfl | hu'
    · rw [List.foldl_cons]
      apply fast_errors_mono hash rest (fastStep hash acc u)
      simp [fastStep, hex]
    · rw [List.foldl_cons]
      apply ih (fastStep hash acc v) u hu'
      unfold fastStep
      by_cases hmem : v.username ∈ acc.existing <;> simp [hmem, hex]

/-- Production-mode merge phase: created usernames, username-set additions
and users-array additions coincide, errors only grow, and every chunk
result lands in exactly one of `created` and `errors`. -/
theorem prodMerge_delta :
    ∀ (results : List (String ⊕ UserRec)) (acc : BatchAcc), ∃ δ ε : List String,
      (prodMerge acc results).created = acc.created ++ δ ∧
      (prodMerge acc results).existing = acc.existing ++ δ ∧
      (prodMerge acc results).users.map (fun v => v.username) =
        acc.users.map (fun v => v.username) ++ δ ∧
      (prodMerge acc results).errors = acc.errors ++ ε ∧
      δ.length + ε.length = results.length := by
  intro results
  induction results with
  | nil => exact fun acc => ⟨[], [], by simp [prodMerge]⟩
  | cons r rest ih =>
    intro acc
    cases r with
    | inl e =>
      obtain ⟨δ, ε, h₁, h₂, h₃, h₄, h₅⟩ := ih { acc with errors := acc.errors ++ [e] }
      exact ⟨δ, e :: ε, by simp_all [prodMerge]; omega⟩
    | inr v =>
      obtain ⟨δ, ε, h₁, h₂, h₃, h₄, h₅⟩ := ih
        { acc with
          users := acc.users ++ [v]
          created := acc.created ++ [v.username]
          existing := acc.existing ++ [v.username] }
      exact ⟨v.username :: δ, ε, by simp_all [prodMerge]; omega⟩

/-- Production-mode merge keeps every error produced by the chunk phase. -/
theorem prodMerge_dup_err :
    ∀ (results : List (String ⊕ UserRec)) (acc : BatchAcc) (e : String),
      .inl e ∈ results → e ∈ (prodMerge acc results).errors := by
  intro results
  induction results with
  | nil => intro _ _ h; exact absurd h (List.not_mem_nil _)
  | cons r rest ih =>
    intro acc e he
    rcases List.mem_cons.mp he with heq | he'
    · cases heq
      obtain ⟨δ, ε, -, -, -, h₄, -⟩ := prodMerge_delta rest
        { acc with errors := acc.errors ++ [e] }
      show e ∈ (prodMerge _ rest).errors
      rw [h₄]
      simp
    · cases r with
      | inl e' => exact ih _ e he'
      | inr v => exact ih _ e he'

/-- Production-mode chunk loop: same accounting as the merge phase,
propagated through all chunks; with enough fuel every input entry lands in
exactly one of `created` and `errors`. -/
theorem prodLoop_delta (hash : String → String) :
    ∀ (fuel : Nat) (input : List NewUserData) (acc : BatchAcc), ∃ δ ε : List String,
      (prodLoop hash fuel acc input).created = acc.created ++ δ ∧
      (prodLoop hash fuel acc input).existing = acc.existing ++ δ ∧
      (prodLoop hash fuel acc input).users.map (fun v => v.username) =
        acc.users.map (fun v => v.username) ++ δ ∧
      (prodLoop hash fuel acc input).errors = acc.errors ++ ε ∧
      (input.length ≤ fuel → δ.length + ε.length = input.length) := by
  intro fuel
  induction fuel with
  | zero =>
    intro input acc
    cases input with
    | nil => exact ⟨[], [], by simp [prodLoop]⟩
    | cons u rest =>
      refine ⟨[], [], by simp [prodLoop], by simp [prodLoop], by simp [prodLoop],
        by simp [prodLoop], ?_⟩
      intro h
      simp at h
  | succ fuel ih =>
    intro input acc
    cases input with
    | nil => exact ⟨[], [], by simp [prodLoop]⟩
    | cons u rest =>
      obtain ⟨δ₁, ε₁, g₁, g₂, g₃, g₄, g₅⟩ := prodMerge_delta
        (prodChunkResults hash acc.existing ((u :: rest).take 50)) acc
      obtain ⟨δ₂, ε₂, k₁, k₂, k₃, k₄, k₅⟩ := ih ((u :: rest).drop 50)
        (prodMerge acc (prodChunkResults hash acc.existing ((u :: rest).take 50)))
      refine ⟨δ₁ ++ δ₂, ε₁ ++ ε₂, ?_, ?_, ?_, ?_, ?_⟩
      · rw [show prodLoop hash (fuel + 1) acc (u :: rest) =
          prodLoop hash fuel
            (prodMerge acc (prodChunkResults hash acc.existing ((u :: rest).take 50)))
            ((u :: rest).drop 50) from rfl, k₁, g₁, List.append_assoc]
      · rw [show prodLoop hash (fuel + 1) acc (u :: rest) =
          prodLoop hash fuel
            (prodMerge acc (prodChunkResults hash acc.existing ((u :: rest).take 50)))
            ((u :: rest).drop 50) from rfl, k₂, g₂, List.append_assoc]
      · rw [show prodLoop hash (fuel + 1) acc (u :: rest) =
          prodLoop hash fuel
            (prodMerge acc (prodChunkResults hash acc.existing ((u :: rest).take 50)))
            ((u :: rest).drop 50) from rfl, k₃, g₃, List.append_assoc]
      · rw [show prodLoop hash (fuel + 1) acc (u :: rest) =
          prodLoop hash fuel
            (prodMerge acc (prodChunkResults hash acc.existing ((u :: rest).take 50)))
            ((u :: rest).drop 50) from rfl, k₄, g₄, List.append_assoc]
      · intro hfuel
        have hlen : ((u :: rest).drop 50).length ≤ fuel := by
          simp only [List.length_drop, List.length_cons] at *
          omega
        have hchunk : (prodChunkResults hash acc.existing ((u :: rest).take 50)).length =
            ((u :: rest).take 50).length := by
          simp [prodChunkResults]
        have := k₅ hlen
        simp only [List.length_append, List.length_take, List.length_drop,
          List.length_cons] at *
        omega

/-- Production mode reports every input entry whose username is in the set
before its chunk starts (in particular every username already stored). -/
theorem prodLoop_dup_err (hash : String → String) :
    ∀ (fuel : Nat) (input : List NewUserData) (acc : BatchAcc) (u : NewUserData),
      u ∈ input → u.username ∈ acc.existing → input.length ≤ fuel →
      u.username ∈ (prodLoop hash fuel acc input).errors := by
  intro fuel
  induction fuel with
  | zero =>
    intro input acc u hu hex hlen
    cases input with
    | nil => exact absurd hu (List.not_mem_nil _)
    | cons v rest => simp at hlen
  | succ fuel ih =>
    intro input acc u hu hex hlen
    cases input with
    | nil => exact absurd hu (List.not_mem_nil _)
    | cons v rest =>
      have hsplit : u ∈ (v :: rest).take 50 ∨ u ∈ (v :: rest).drop 50 := by
        rw [← List.mem_append, List.take_append_drop]
        exact hu
      rw [show prodLoop hash (fuel + 1) acc (v :: rest) =
        prodLoop hash fuel
          (prodMerge acc (prodChunkResults hash acc.existing ((v :: rest).take 50)))
          ((v :: rest).drop 50) from rfl]
      rcases hsplit with htk | hdr
      · have hinl : Sum.inl (β := UserRec) u.username ∈
            prodChunkResults hash acc.existing ((v :: rest).take 50) := by
          unfold prodChunkResults
          refine List.mem_map.mpr ⟨u, htk, ?_⟩
          simp [hex]
        have hmerged := prodMerge_dup_err _ acc u.username hinl
        obtain ⟨δ, ε, -, -, -, h₄, -⟩ := prodLoop_delta hash fuel ((v :: rest).drop 50)
          (prodMerge acc (prodChunkResults hash acc.existing ((v :: rest).take 50)))
        rw [h₄]
        exact List.mem_append.mpr (Or.inl hmerged)
      · obtain ⟨δ, ε, -, g₂, -, -, -⟩ := prodMerge_delta
          (prodChunkResults hash acc.existing ((v :: rest).take 50)) acc
        apply ih ((v :: rest).drop 50) _ u hdr
        · rw [g₂]
          exact List.mem_append.mpr (Or.inl hex)
        · simp only [List.length_drop, List.length_cons] at *
          omega

/-- C10 amended: `createUsersBatch` never rejects on duplicate usernames;
in both modes every input entry lands in exactly one of the returned
`created` and `errors` lists, every entry whose username already exists in
the stored collection is reported in `errors`, and the collection
persisted by the single final write is the stored records followed by the
created ones.  In fast-hash mode an entry duplicating an *earlier entry of
the same batch* is also reported in `errors`, so the persisted usernames
stay duplicate-free whenever the stored ones were; in production mode the
duplicate checks of a 50-entry chunk all run before any of the chunk's
results are merged, so such within-chunk duplicates are created rather
than reported (see the counterexample). -/
theorem C10_batch_duplicate_handling (hash : String → String) (stored : List UserRec)
    (input : List NewUserData) :
    ((createUsersBatchFast hash stored input).created.length +
        (createUsersBatchFast hash stored input).errors.length = input.length) ∧
      ((createUsersBatchProd hash stored input).created.length +
        (createUsersBatchProd hash stored input).errors.length = input.length) ∧
      (∀ u ∈ input, u.username ∈ stored.map (fun v => v.username) →
        u.username ∈ (createUsersBatchFast hash stored input).errors) ∧
      (∀ u ∈ input, u.username ∈ stored.map (fun v => v.username) →
        u.username ∈ (createUsersBatchProd hash stored input).errors) ∧
      ((createUsersBatchFast hash stored input).users.map (fun v => v.username) =
        stored.map (fun v => v.username) ++ (createUsersBatchFast hash stored input).created) ∧
      ((createUsersBatchProd hash stored input).users.map (fun v => v.username) =
        stored.map (fun v => v.username) ++ (createUsersBatchProd hash stored input).created) ∧
      ((stored.map (fun v => v.username)).Nodup →
        ((createUsersBatchFast hash stored input).users.map (fun v => v.username)).Nodup) := by
  obtain ⟨δ, h₁, h₂, h₃, h₄, h₅, h₆⟩ := fast_delta hash input
    ⟨stored, [], [], stored.map (fun v => v.username)⟩
  obtain ⟨δ', ε', k₁, k₂, k₃, k₄, k₅⟩ := prodLoop_delta hash input.length input
    ⟨stored, [], [], stored.map (fun v => v.username)⟩
  refine ⟨?_, ?_, ?_, ?_, ?_, ?_, ?_⟩
  · simpa [createUsersBatchFast] using h₆
  · have hk := k₅ (Nat.le_refl _)
    simp only [createUsersBatchProd, k₁, k₄]
    simp [hk]
  · intro u hu hex
    exact fast_dup_err hash input ⟨stored, [], [], stored.map (fun v => v.username)⟩
      u hu hex
  · intro u hu hex
    exact prodLoop_dup_err hash input.length input
      ⟨stored, [], [], stored.map (fun v => v.username)⟩ u hu hex (Nat.le_refl _)
  · show (List.foldl (fastStep hash) _ input).users.map _ = _
    rw [h₃]
    simp only [createUsersBatchFast]
    rw [h₁]
    rfl
  · show (prodLoop hash input.length _ input).users.map _ = _
    rw [k₃]
    simp only [createUsersBatchProd]
    rw [k₁]
    rfl
  · intro hnd
    show ((List.foldl (fastStep hash) _ input).users.map _).Nodup
    rw [h₃]
    refine List.Nodup.append hnd h₄ ?_
    intro a ha hd
    exact h₅ a hd ha

/-- Witness for the amended C10: one stored user `ann`, a batch of a
duplicate `ann` and a fresh `bob`.  Both modes report `ann` in the errors
list, every entry is accounted for, and the fast-mode persisted usernames
stay duplicate-free. -/
theorem C10_batch_duplicate_handling_witness :
    "ann" ∈ (createUsersBatchFast (fun s => s) [⟨"ann", "h"⟩]
        [⟨"ann", "p"⟩, ⟨"bob", "q"⟩]).errors ∧
      "ann" ∈ (createUsersBatchProd (fun s => s) [⟨"ann", "h"⟩]
        [⟨"ann", "p"⟩, ⟨"bob", "q"⟩]).errors ∧
      (createUsersBatchFast (fun s => s) [⟨"ann", "h"⟩]
        [⟨"ann", "p"⟩, ⟨"bob", "q"⟩]).created.length +
        (createUsersBatchFast (fun s => s) [⟨"ann", "h"⟩]
          [⟨"ann", "p"⟩, ⟨"bob", "q"⟩]).errors.length = 2 ∧
      ((createUsersBatchFast (fun s => s) [⟨"ann", "h"⟩]
        [⟨"ann", "p"⟩, ⟨"bob", "q"⟩]).users.map (fun v => v.username)).Nodup := by
  have h := C10_batch_duplicate_handling (fun s => s) [⟨"ann", "h"⟩]
    [⟨"ann", "p"⟩, ⟨"bob", "q"⟩]
  exact ⟨h.2.2.1 ⟨"ann", "p"⟩ (by decide) (by decide),
    h.2.2.2.1 ⟨"ann", "p"⟩ (by decide) (by decide),
    h.1,
    h.2.2.2.2.2.2 (by decide)⟩

end MiniTalk
